import Mathlib

/-!
Verification of the graph-construction and BFS pathfinding engine of the
campus route-finding program (source file `core/modified.py`).

The Python source is shallowly embedded as follows:
* Python floats that carry geographic coordinates are modelled as rationals
  (`ℚ`); `round(x, p)` and the fixed-point f-string format `"{x:.pf}"` are
  modelled by exact half-even rounding at `p` decimal digits.  The sign of a
  formatted value is the sign of the input, as in CPython, so a negative
  value that rounds to zero prints with a leading minus sign.
* Python dicts whose iteration order matters (`node_coords_to_networkx_id`,
  `networkx_id_to_details`, the NetworkX edge store) are modelled as
  insertion-ordered association lists with first-match lookup.
* The NetworkX undirected graph used by `build_network_graph` is modelled as
  the node list plus an association list keyed by the canonically ordered
  node pair; `add_edge` on an existing pair overwrites the stored attributes,
  as NetworkX does.
* The graph consumed by `bfs_shortest_path` is abstracted to a node set plus
  an adjacency-list function (NetworkX reports neighbors in a fixed stored
  order); the Python `deque` is a list popped at the head and extended at the
  tail, and the `visited` set is a `Finset`.
* The Python `while queue:` loop is embedded with a fuel parameter; the fuel
  passed by `bfs_shortest_path` strictly exceeds every possible iteration
  count (each node is enqueued at most once), which the proofs establish.
-/

/-! ## Decimal rendering of natural numbers

`natDigitsAux (n+1) n` computes the decimal digit characters of `n`; the
first argument is structural fuel that always suffices because `n / 10 < n`.
-/

def digitChar (d : Nat) : Char := Char.ofNat (48 + d)

def natDigitsAux : Nat → Nat → List Char
  | 0, _ => []
  | fuel + 1, n =>
    if n < 10 then [digitChar n]
    else natDigitsAux fuel (n / 10) ++ [digitChar (n % 10)]

def natRepr (n : Nat) : String := String.mk (natDigitsAux (n + 1) n)

/-- Every character emitted by `natDigitsAux` is a decimal digit. -/
theorem natDigitsAux_digits (fuel n : Nat) :
    ∀ c ∈ natDigitsAux fuel n, ∃ d, d < 10 ∧ c = digitChar d := by
  induction fuel generalizing n with
  | zero => intro c hc; simp [natDigitsAux] at hc
  | succ fuel ih =>
    intro c hc
    by_cases h : n < 10
    · simp [natDigitsAux, h] at hc
      exact ⟨n, h, hc⟩
    · simp [natDigitsAux, h] at hc
      rcases hc with hc | hc
      · exact ih (n / 10) c hc
      · exact ⟨n % 10, Nat.mod_lt _ (by omega), hc⟩

/-! ## Coordinate Key Encoder

Model of `f"{point.x:.{precision}f},{point.y:.{precision}f}"`
(`modified.py` lines 123, 174-175) together with Python `round(x, p)`.
Both use round-half-even on the scaled value.
-/

/-- Round-half-even to the nearest integer, the rounding used both by
Python `round` and by the `%.Nf` fixed-point format. -/
def rhe (x : ℚ) : ℤ :=
  let f := ⌊x⌋
  let r := x - (f : ℚ)
  if r < 1 / 2 then f
  else if 1 / 2 < r then f + 1
  else if f % 2 = 0 then f else f + 1

/-- Model of Python `round(x, p)` on a coordinate value. -/
def pyRound (p : Nat) (x : ℚ) : ℚ := ((rhe (x * 10 ^ p) : ℤ) : ℚ) / 10 ^ p

/-- Left-pad a digit string with zeros to width `p` (fractional field of a
fixed-point format). -/
def zeroPad (p : Nat) (s : String) : String :=
  String.mk (List.replicate (p - s.length) '0') ++ s

/-- Model of the fixed-point format `f"{x:.{p}f}"`: sign taken from the
input value (CPython prints `-0.000000` for a negative value rounding to
zero), then the digits of the half-even-rounded magnitude with exactly `p`
fractional digits and no exponent. -/
def formatFixed (p : Nat) (x : ℚ) : String :=
  let m : Nat := (rhe (x * 10 ^ p)).natAbs
  let sign : String := if x < 0 then "-" else ""
  sign ++ natRepr (m / 10 ^ p) ++
    (if p = 0 then "" else "." ++ zeroPad p (natRepr (m % 10 ^ p)))

/-- The coordinate key `f"{x:.{p}f},{y:.{p}f}"` used for node deduplication
and edge endpoint resolution. -/
def coordKey (p : Nat) (x y : ℚ) : String :=
  formatFixed p x ++ "," ++ formatFixed p y

/-- Characters of a formatted fixed-point value: digits, minus sign, or the
decimal point. -/
theorem formatFixed_chars (p : Nat) (x : ℚ) :
    ∀ c ∈ (formatFixed p x).data,
      (∃ d, d < 10 ∧ c = digitChar d) ∨ c = '-' ∨ c = '.' := by
  intro c hc
  unfold formatFixed at hc
  simp only [String.data_append] at hc
  rcases List.mem_append.mp hc with hc | hc
  · rcases List.mem_append.mp hc with hc | hc
    · by_cases hx : x < 0
      · simp [hx, String.data] at hc
        right; left; exact hc
      · simp [hx, String.data] at hc
    · left
      exact natDigitsAux_digits _ _ c hc
  · by_cases hp : p = 0
    · simp [hp, String.data] at hc
    · simp only [hp, if_false] at hc
      rcases List.mem_append.mp hc with hc | hc
      · simp [String.data] at hc
        right; right; exact hc
      · rcases List.mem_append.mp hc with hc | hc
        · rw [List.eq_of_mem_replicate hc]
          left; exact ⟨0, by omega, by decide⟩
        · left
          exact natDigitsAux_digits _ _ c hc

/-- Scaled-integer equality follows from equality of the rounded rationals. -/
theorem rhe_eq_of_pyRound_eq {p : Nat} {a b : ℚ} (h : pyRound p a = pyRound p b) :
    rhe (a * 10 ^ p) = rhe (b * 10 ^ p) := by
  unfold pyRound at h
  have hp : ((10 : ℚ) ^ p) ≠ 0 := pow_ne_zero _ (by norm_num)
  field_simp at h
  exact_mod_cast h

theorem formatFixed_congr {p : Nat} {a b : ℚ}
    (h : pyRound p a = pyRound p b) (hs : a < 0 ↔ b < 0) :
    formatFixed p a = formatFixed p b := by
  have hr := rhe_eq_of_pyRound_eq h
  unfold formatFixed
  rw [hr]
  by_cases ha : a < 0
  · rw [if_pos ha, if_pos (hs.mp ha)]
  · rw [if_neg ha, if_neg (fun hb => ha (hs.mpr hb))]

/-- Claim C9 (amended): if the two x values round equally at precision `p`,
the two y values round equally, and corresponding components agree in sign,
then the Coordinate Key Encoder produces identical keys; moreover the key is
pure fixed-point text (it never contains an exponent marker).  The sign
condition is forced by the negative-zero counterexample below. -/
theorem coordKey_respects_rounding (a b : ℚ × ℚ) (p : Nat)
    (hx : pyRound p a.1 = pyRound p b.1) (hy : pyRound p a.2 = pyRound p b.2)
    (hsx : a.1 < 0 ↔ b.1 < 0) (hsy : a.2 < 0 ↔ b.2 < 0) :
    coordKey p a.1 a.2 = coordKey p b.1 b.2 ∧
      ∀ c ∈ (coordKey p a.1 a.2).data, c ≠ 'e' ∧ c ≠ 'E' := by
  constructor
  · unfold coordKey
    rw [formatFixed_congr hx hsx, formatFixed_congr hy hsy]
  · intro c hc
    unfold coordKey at hc
    simp only [String.data_append] at hc
    have hchar : (∃ d, d < 10 ∧ c = digitChar d) ∨ c = '-' ∨ c = '.' ∨ c = ',' := by
      rcases List.mem_append.mp hc with hc | hc
      · rcases List.mem_append.mp hc with hc | hc
        · rcases formatFixed_chars p a.1 c hc with h | h | h
          · exact Or.inl h
          · exact Or.inr (Or.inl h)
          · exact Or.inr (Or.inr (Or.inl h))
        · simp [String.data] at hc
          exact Or.inr (Or.inr (Or.inr hc))
      · rcases formatFixed_chars p a.2 c hc with h | h | h
        · exact Or.inl h
        · exact Or.inr (Or.inl h)
        · exact Or.inr (Or.inr (Or.inl h))
    rcases hchar with ⟨d, hd, rfl⟩ | rfl | rfl | rfl
    · interval_cases d <;> exact ⟨by decide, by decide⟩
    · exact ⟨by decide, by decide⟩
    · exact ⟨by decide, by decide⟩
    · exact ⟨by decide, by decide⟩

unseal Rat.mul Rat.add Rat.sub Rat.inv in
/-- Counterexample to claim C9 as stated: `-1/10^7` and `1/10^7` round
equally at precision 6 (both to zero), yet their keys differ, because the
fixed-point format keeps the sign of a negative input that rounds to zero
(CPython prints `-0.000000`). -/
theorem coordKey_negative_zero_counterexample :
    pyRound 6 (-1 / 10000000 : ℚ) = pyRound 6 (1 / 10000000 : ℚ) ∧
      coordKey 6 (-1 / 10000000 : ℚ) 0 ≠ coordKey 6 (1 / 10000000 : ℚ) 0 :=
  ⟨by decide, by decide⟩

unseal Rat.mul Rat.add Rat.sub Rat.inv in
/-- Witness for the amended claim C9 at `p = 6` on the concrete pair
`(1/4, 0)` versus `(1/4 + 10^-9, 0)`. -/
theorem coordKey_respects_rounding_witness :
    (pyRound 6 ((1 : ℚ) / 4) = pyRound 6 ((1 : ℚ) / 4 + 1 / 1000000000) ∧
      (((1 : ℚ) / 4) < 0 ↔ ((1 : ℚ) / 4 + 1 / 1000000000) < 0)) ∧
      coordKey 6 ((1 : ℚ) / 4) 0 = coordKey 6 ((1 : ℚ) / 4 + 1 / 1000000000) 0 :=
  ⟨⟨by decide, by decide⟩,
    (coordKey_respects_rounding ((1 : ℚ) / 4, 0) ((1 : ℚ) / 4 + 1 / 1000000000, 0) 6
      (by decide) (by decide) (by decide) (by decide)).1⟩

/-! ## Node Index Builder

Model of the node-preparation loop of `prepare_graph_nodes`
(`modified.py` lines 117-145).  A `PointRecord` is one row of the combined
GeoDataFrame: a point geometry plus the values read from the configured
name and unique-id columns (`none` models a missing column or a
NaN/missing value, for which `pd.notna` is false; a present value is the
string Python obtains, stored after `str(...).strip()`).  The two Python
dicts are insertion-ordered association lists with first-match lookup.
-/

/-- Model of Python `str.strip()` (ASCII whitespace): drop leading and
trailing whitespace characters. -/
def stripChars (l : List Char) : List Char :=
  ((l.dropWhile Char.isWhitespace).reverse.dropWhile Char.isWhitespace).reverse

/-- Model of Python `str.strip()` on strings. -/
def pyStrip (s : String) : String := String.mk (stripChars s.data)

structure PointRecord where
  x : ℚ
  y : ℚ
  name : Option String
  uid : Option String
deriving DecidableEq

structure NodeDetails where
  geometry : ℚ × ℚ
  name : String
  qgis_id : String
deriving DecidableEq

/-- Coordinate key of a record, `f"{geom.x:.{p}f},{geom.y:.{p}f}"`. -/
def recordKey (p : Nat) (r : PointRecord) : String := coordKey p r.x r.y

/-- Value stored for the node name: `str(name).strip()` when `pd.notna`,
else the synthetic placeholder built from the NetworkX id being assigned. -/
def nodeName (r : PointRecord) (nid : Nat) : String :=
  match r.name with
  | some s => pyStrip s
  | none => "Unnamed_Node_NX_" ++ Nat.repr nid

/-- Value stored for the unique id: `str(id).strip()` when `pd.notna`, else
the synthetic placeholder built from the NetworkX id being assigned. -/
def nodeUid (r : PointRecord) (nid : Nat) : String :=
  match r.uid with
  | some s => pyStrip s
  | none => "QGIS_ID_NX_" ++ Nat.repr nid

/-- The details entry written for a record that becomes node `nid`. -/
def mkDetails (r : PointRecord) (nid : Nat) : NodeDetails :=
  ⟨(r.x, r.y), nodeName r nid, nodeUid r nid⟩

/-- First-match lookup in the coordinate-key dictionary. -/
def strLookup : List (String × Nat) → String → Option Nat
  | [], _ => none
  | (k9, v) :: rest, k => if k9 = k then some v else strLookup rest k

/-- First-match lookup in the id-to-details dictionary. -/
def detLookup : List (Nat × NodeDetails) → Nat → Option NodeDetails
  | [], _ => none
  | (k9, v) :: rest, k => if k9 = k then some v else detLookup rest k

/-- The loop of `prepare_graph_nodes`: walk the records in order; a record
whose coordinate key is already present is skipped, otherwise the next
sequential NetworkX id is assigned and both dictionaries are extended. -/
def prepareAux (p : Nat) :
    List PointRecord → Nat → List (String × Nat) → List (Nat × NodeDetails) →
      List (String × Nat) × List (Nat × NodeDetails)
  | [], _, cm, dm => (cm, dm)
  | r :: rest, next, cm, dm =>
    if (strLookup cm (recordKey p r)).isSome then
      prepareAux p rest next cm dm
    else
      prepareAux p rest (next + 1) (cm ++ [(recordKey p r, next)])
        (dm ++ [(next, mkDetails r next)])

/-- Model of `prepare_graph_nodes` on the combined record sequence:
returns `(node_coords_to_networkx_id, networkx_id_to_details)`. -/
def prepare_graph_nodes (records : List PointRecord) (p : Nat) :
    List (String × Nat) × List (Nat × NodeDetails) :=
  prepareAux p records 0 [] []

/-- The first record of the sequence carrying the given coordinate key. -/
def firstWithKey (p : Nat) (k : String) : List PointRecord → Option PointRecord
  | [] => none
  | r :: rest => if recordKey p r = k then some r else firstWithKey p k rest

theorem strLookup_append_left {cm : List (String × Nat)} {k : String} {v : Nat}
    (h : strLookup cm k = some v) (cm2 : List (String × Nat)) :
    strLookup (cm ++ cm2) k = some v := by
  induction cm with
  | nil => simp [strLookup] at h
  | cons e rest ih =>
    rcases e with ⟨k9, v9⟩
    by_cases hk : k9 = k
    · simp [strLookup, hk] at h
      simp [strLookup, hk, h]
    · simp [strLookup, hk] at h ⊢
      exact ih h

theorem strLookup_append_right {cm : List (String × Nat)} {k : String}
    (h : strLookup cm k = none) (cm2 : List (String × Nat)) :
    strLookup (cm ++ cm2) k = strLookup cm2 k := by
  induction cm with
  | nil => simp
  | cons e rest ih =>
    rcases e with ⟨k9, v9⟩
    by_cases hk : k9 = k
    · simp [strLookup, hk] at h
    · simp [strLookup, hk] at h ⊢
      exact ih h

theorem detLookup_append_left {dm : List (Nat × NodeDetails)} {k : Nat} {v : NodeDetails}
    (h : detLookup dm k = some v) (dm2 : List (Nat × NodeDetails)) :
    detLookup (dm ++ dm2) k = some v := by
  induction dm with
  | nil => simp [detLookup] at h
  | cons e rest ih =>
    rcases e with ⟨k9, v9⟩
    by_cases hk : k9 = k
    · simp [detLookup, hk] at h
      simp [detLookup, hk, h]
    · simp [detLookup, hk] at h ⊢
      exact ih h

theorem detLookup_append_right {dm : List (Nat × NodeDetails)} {k : Nat}
    (h : detLookup dm k = none) (dm2 : List (Nat × NodeDetails)) :
    detLookup (dm ++ dm2) k = detLookup dm2 k := by
  induction dm with
  | nil => simp
  | cons e rest ih =>
    rcases e with ⟨k9, v9⟩
    by_cases hk : k9 = k
    · simp [detLookup, hk] at h
    · simp [detLookup, hk] at h ⊢
      exact ih h

theorem detLookup_none_of_not_mem {dm : List (Nat × NodeDetails)} {k : Nat}
    (h : k ∉ dm.map Prod.fst) : detLookup dm k = none := by
  induction dm with
  | nil => rfl
  | cons e rest ih =>
    rcases e with ⟨k9, v9⟩
    have hk : ¬ k9 = k := by
      intro hh; exact h (by simp [hh])
    have hrest : k ∉ rest.map Prod.fst := by
      intro hh; exact h (by simp [hh])
    simp [detLookup, hk, ih hrest]

theorem strLookup_mem_of_isSome {cm : List (String × Nat)} {k : String}
    (h : (strLookup cm k).isSome) : k ∈ cm.map Prod.fst := by
  induction cm with
  | nil => simp [strLookup] at h
  | cons e rest ih =>
    rcases e with ⟨k9, v9⟩
    by_cases hk : k9 = k
    · simp [hk]
    · simp [strLookup, hk] at h
      simp [ih h]

theorem strLookup_none_of_not_mem {cm : List (String × Nat)} {k : String}
    (h : k ∉ cm.map Prod.fst) : strLookup cm k = none := by
  induction cm with
  | nil => rfl
  | cons e rest ih =>
    rcases e with ⟨k9, v9⟩
    have hk : ¬ k9 = k := by
      intro hh; exact h (by simp [hh])
    have hrest : k ∉ rest.map Prod.fst := by
      intro hh; exact h (by simp [hh])
    simp [strLookup, hk, ih hrest]

/-- The loop only ever appends to the two dictionaries. -/
theorem prepareAux_extend (p : Nat) :
    ∀ (records : List PointRecord) (next : Nat) (cm : List (String × Nat))
      (dm : List (Nat × NodeDetails)),
      ∃ cm2 dm2, (prepareAux p records next cm dm).1 = cm ++ cm2 ∧
        (prepareAux p records next cm dm).2 = dm ++ dm2 := by
  intro records
  induction records with
  | nil => exact fun next cm dm => ⟨[], [], by simp [prepareAux], by simp [prepareAux]⟩
  | cons r rest ih =>
    intro next cm dm
    by_cases h : (strLookup cm (recordKey p r)).isSome
    · rcases ih next cm dm with ⟨cm2, dm2, h1, h2⟩
      exact ⟨cm2, dm2, by simp [prepareAux, h, h1], by simp [prepareAux, h, h2]⟩
    · rcases ih (next + 1) (cm ++ [(recordKey p r, next)]) (dm ++ [(next, mkDetails r next)])
        with ⟨cm2, dm2, h1, h2⟩
      refine ⟨(recordKey p r, next) :: cm2, (next, mkDetails r next) :: dm2, ?_, ?_⟩
      · simp [prepareAux, h] at h1 ⊢
        exact h1
      · simp [prepareAux, h] at h2 ⊢
        exact h2

theorem strLookup_isSome_of_mem {cm : List (String × Nat)} {k : String}
    (h : k ∈ cm.map Prod.fst) : (strLookup cm k).isSome := by
  induction cm with
  | nil => simp at h
  | cons e rest ih =>
    rcases e with ⟨k9, v9⟩
    by_cases hk : k9 = k
    · simp [strLookup, hk]
    · simp [strLookup, hk]
      apply ih
      rcases List.mem_map.mp h with ⟨e2, he2, hfst⟩
      rcases List.mem_cons.mp he2 with rfl | he2
      · exact absurd hfst hk
      · exact List.mem_map.mpr ⟨e2, he2, hfst⟩

/-- Core first-write-wins property of the node loop: if `r0` is the first
record carrying key `k` and `k` is fresh in the accumulated dictionary,
then the final dictionaries map `k` to some id `nid` whose stored details
are exactly those computed from `r0`. -/
theorem prepareAux_first_wins (p : Nat) :
    ∀ (records : List PointRecord) (k : String) (r0 : PointRecord)
      (next : Nat) (cm : List (String × Nat)) (dm : List (Nat × NodeDetails)),
      firstWithKey p k records = some r0 →
      strLookup cm k = none →
      dm.map Prod.fst = List.range next →
      ∃ nid, strLookup (prepareAux p records next cm dm).1 k = some nid ∧
        detLookup (prepareAux p records next cm dm).2 nid = some (mkDetails r0 nid) := by
  intro records
  induction records with
  | nil => intro k r0 next cm dm hfirst; simp [firstWithKey] at hfirst
  | cons r rest ih =>
    intro k r0 next cm dm hfirst hcm hdm
    by_cases hk : recordKey p r = k
    · simp [firstWithKey, hk] at hfirst
      subst hfirst
      have hseen : ¬ (strLookup cm (recordKey p r)).isSome = true := by
        rw [hk, hcm]; simp
      rcases prepareAux_extend p rest (next + 1) (cm ++ [(recordKey p r, next)])
        (dm ++ [(next, mkDetails r next)]) with ⟨cm2, dm2, e1, e2⟩
      refine ⟨next, ?_, ?_⟩
      · simp only [prepareAux, hseen, if_false, Bool.false_eq_true]
        rw [e1, List.append_assoc]
        rw [strLookup_append_right hcm]
        simp [strLookup, hk]
      · simp only [prepareAux, hseen, if_false, Bool.false_eq_true]
        rw [e2, List.append_assoc]
        have hnone : detLookup dm next = none := by
          apply detLookup_none_of_not_mem
          simp [hdm]
        rw [detLookup_append_right hnone]
        simp [detLookup]
    · simp [firstWithKey, hk] at hfirst
      by_cases hseen : (strLookup cm (recordKey p r)).isSome
      · simp only [prepareAux, hseen, if_true]
        exact ih k r0 next cm dm hfirst hcm hdm
      · simp only [prepareAux, hseen, if_false, Bool.false_eq_true]
        apply ih k r0 (next + 1) _ _ hfirst
        · rw [strLookup_append_right hcm]
          simp [strLookup, hk]
        · simp [hdm, List.range_succ]

/-- Claim C4: when several point records share a coordinate key, they
collapse onto a single node id and the stored geometry, name and unique id
are exactly those computed from the first such record in input order;
later duplicates leave the entry unchanged. -/
theorem prepare_first_record_wins (records : List PointRecord) (p : Nat)
    (k : String) (r0 : PointRecord) (h : firstWithKey p k records = some r0) :
    ∃ nid, strLookup (prepare_graph_nodes records p).1 k = some nid ∧
      detLookup (prepare_graph_nodes records p).2 nid = some (mkDetails r0 nid) :=
  prepareAux_first_wins p records k r0 0 [] [] h rfl rfl

unseal Rat.mul Rat.add Rat.sub Rat.inv in
/-- Witness for claim C4: two records at the same coordinates; the stored
details for the shared key are those of the first record. -/
theorem prepare_first_record_wins_witness :
    firstWithKey 6 "0.000000,0.000000"
        [⟨0, 0, some "A", some "a1"⟩, ⟨0, 0, some "B", some "b2"⟩] =
      some ⟨0, 0, some "A", some "a1"⟩ ∧
    ∃ nid,
      strLookup (prepare_graph_nodes
          [⟨0, 0, some "A", some "a1"⟩, ⟨0, 0, some "B", some "b2"⟩] 6).1
          "0.000000,0.000000" = some nid ∧
      detLookup (prepare_graph_nodes
          [⟨0, 0, some "A", some "a1"⟩, ⟨0, 0, some "B", some "b2"⟩] 6).2 nid =
        some (mkDetails ⟨0, 0, some "A", some "a1"⟩ nid) :=
  ⟨by decide, prepare_first_record_wins _ 6 _ _ (by decide)⟩

/-- Claim C5 (amended): for the record that creates a node, the synthetic
placeholders `Unnamed_Node_NX_{id}` and `QGIS_ID_NX_{id}` are stored
exactly when the corresponding field is absent (`pd.notna` false); a field
that is present — even blank — is stored as its trimmed string value, so a
blank name is stored as the empty string, not as the placeholder. -/
theorem prepare_placeholder_semantics (records : List PointRecord) (p : Nat)
    (k : String) (r0 : PointRecord) (h : firstWithKey p k records = some r0) :
    ∃ nid d, strLookup (prepare_graph_nodes records p).1 k = some nid ∧
      detLookup (prepare_graph_nodes records p).2 nid = some d ∧
      (r0.name = none → d.name = "Unnamed_Node_NX_" ++ Nat.repr nid) ∧
      (r0.uid = none → d.qgis_id = "QGIS_ID_NX_" ++ Nat.repr nid) ∧
      (∀ s, r0.name = some s → d.name = pyStrip s) ∧
      (∀ s, r0.uid = some s → d.qgis_id = pyStrip s) := by
  rcases prepareAux_first_wins p records k r0 0 [] [] h rfl rfl with ⟨nid, h1, h2⟩
  refine ⟨nid, mkDetails r0 nid, h1, h2, ?_, ?_, ?_, ?_⟩
  · intro hn; simp [mkDetails, nodeName, hn]
  · intro hn; simp [mkDetails, nodeUid, hn]
  · intro s hs; simp [mkDetails, nodeName, hs]
  · intro s hs; simp [mkDetails, nodeUid, hs]

unseal Rat.mul Rat.add Rat.sub Rat.inv in
/-- Counterexample to claim C5 as stated: a record whose name is the blank
string and whose unique id is a whitespace string is stored with the empty
string in both fields, not with the synthetic placeholders, because the
code tests only `pd.notna`, not blankness. -/
theorem prepare_blank_counterexample :
    detLookup (prepare_graph_nodes [⟨0, 0, some "", some " "⟩] 6).2 0 =
        some ⟨(0, 0), "", ""⟩ ∧
      ("" : String) ≠ "Unnamed_Node_NX_0" ∧ ("" : String) ≠ "QGIS_ID_NX_0" :=
  ⟨by decide, by decide, by decide⟩

/-- Structural invariant of the node loop: the id values of the key map and
the id keys of the details map both stay equal to `List.range` of the
running counter, and the coordinate keys stay distinct. -/
theorem prepareAux_consistent (p : Nat) :
    ∀ (records : List PointRecord) (next : Nat) (cm : List (String × Nat))
      (dm : List (Nat × NodeDetails)),
      cm.map Prod.snd = List.range next →
      dm.map Prod.fst = List.range next →
      (cm.map Prod.fst).Nodup →
      ∃ n, (prepareAux p records next cm dm).1.map Prod.snd = List.range n ∧
        (prepareAux p records next cm dm).2.map Prod.fst = List.range n ∧
        ((prepareAux p records next cm dm).1.map Prod.fst).Nodup := by
  intro records
  induction records with
  | nil =>
    intro next cm dm h1 h2 h3
    exact ⟨next, h1, h2, h3⟩
  | cons r rest ih =>
    intro next cm dm h1 h2 h3
    by_cases hseen : (strLookup cm (recordKey p r)).isSome
    · simp only [prepareAux, hseen, if_true]
      exact ih next cm dm h1 h2 h3
    · simp only [prepareAux, hseen, if_false, Bool.false_eq_true]
      apply ih (next + 1)
      · simp [h1, List.range_succ]
      · simp [h2, List.range_succ]
      · have hnm : recordKey p r ∉ cm.map Prod.fst := by
          intro hmem
          exact hseen (strLookup_isSome_of_mem hmem)
        simp [List.nodup_append, h3, hnm]

/-- Key membership in the final key map: exactly the initial keys plus the
coordinate keys of the processed records. -/
theorem prepareAux_keys_iff (p : Nat) :
    ∀ (records : List PointRecord) (next : Nat) (cm : List (String × Nat))
      (dm : List (Nat × NodeDetails)) (k : String),
      k ∈ (prepareAux p records next cm dm).1.map Prod.fst ↔
        (k ∈ cm.map Prod.fst ∨ ∃ r ∈ records, recordKey p r = k) := by
  intro records
  induction records with
  | nil => intro next cm dm k; simp [prepareAux]
  | cons r rest ih =>
    intro next cm dm k
    by_cases hseen : (strLookup cm (recordKey p r)).isSome
    · simp only [prepareAux, hseen, if_true]
      rw [ih]
      constructor
      · rintro (h | ⟨r9, hr9, hkr⟩)
        · exact Or.inl h
        · exact Or.inr ⟨r9, List.mem_cons_of_mem _ hr9, hkr⟩
      · rintro (h | ⟨r9, hr9, hkr⟩)
        · exact Or.inl h
        · rcases List.mem_cons.mp hr9 with rfl | hr9
          · exact Or.inl (hkr ▸ strLookup_mem_of_isSome hseen)
          · exact Or.inr ⟨r9, hr9, hkr⟩
    · simp only [prepareAux, hseen, if_false, Bool.false_eq_true]
      rw [ih]
      have hsplit : ∀ s, s ∈ (cm ++ [(recordKey p r, next)]).map Prod.fst ↔
          (s ∈ cm.map Prod.fst ∨ s = recordKey p r) := by
        intro s; simp
      constructor
      · rintro (h | ⟨r9, hr9, hkr⟩)
        · rcases (hsplit k).mp h with h | h
          · exact Or.inl h
          · exact Or.inr ⟨r, List.mem_cons_self r rest, h.symm⟩
        · exact Or.inr ⟨r9, List.mem_cons_of_mem _ hr9, hkr⟩
      · rintro (h | ⟨r9, hr9, hkr⟩)
        · exact Or.inl ((hsplit k).mpr (Or.inl h))
        · rcases List.mem_cons.mp hr9 with rfl | hr9
          · exact Or.inl ((hsplit k).mpr (Or.inr hkr.symm))
          · exact Or.inr ⟨r9, hr9, hkr⟩

/-- Claim C10: the two mappings returned by the Node Index Builder are
consistent: assigned ids are exactly the contiguous integers `0 .. n-1`
(so the key-to-id mapping is injective), the id set of the key map equals
the key set of the details map, and the stored coordinate keys are exactly
the distinct record keys. -/
theorem prepare_mappings_consistent (records : List PointRecord) (p : Nat) :
    ∃ n, (prepare_graph_nodes records p).1.map Prod.snd = List.range n ∧
      (prepare_graph_nodes records p).2.map Prod.fst = List.range n ∧
      ((prepare_graph_nodes records p).1.map Prod.snd).Nodup ∧
      ((prepare_graph_nodes records p).1.map Prod.fst).Nodup ∧
      ∀ k, k ∈ (prepare_graph_nodes records p).1.map Prod.fst ↔
        ∃ r ∈ records, recordKey p r = k := by
  rcases prepareAux_consistent p records 0 [] [] rfl rfl List.nodup_nil
    with ⟨n, h1, h2, h3⟩
  refine ⟨n, h1, h2, ?_, h3, ?_⟩
  · rw [prepare_graph_nodes, h1]; exact List.nodup_range n
  · intro k
    have h := prepareAux_keys_iff p records 0 [] [] k
    simpa using h

/-! ## Node Resolver

Model of `find_networkx_id` (`modified.py` lines 45-68): linear scan over
the details dictionary; `search_by = 'id'` compares the stored `qgis_id`
as-is against the whitespace-stripped input (case-sensitive);
`search_by = 'name'` compares lowercased name against the lowercased
stripped input; any other mode scans without ever matching.
-/

/-- Model of Python `str.lower()` on an ASCII character. -/
def charLower (c : Char) : Char :=
  if 65 ≤ c.toNat ∧ c.toNat ≤ 90 then Char.ofNat (c.toNat + 32) else c

/-- Model of Python `str.lower()` on a string. -/
def pyLower (s : String) : String := String.mk (s.data.map charLower)

def findAux (stripped searchBy : String) : List (Nat × NodeDetails) → Option Nat
  | [] => none
  | (nid, d) :: rest =>
    if searchBy = "id" then
      if d.qgis_id = stripped then some nid else findAux stripped searchBy rest
    else if searchBy = "name" then
      if pyLower d.name = pyLower stripped then some nid
      else findAux stripped searchBy rest
    else findAux stripped searchBy rest

/-- Model of `find_networkx_id`: strip the incoming identifier, then scan
the details dictionary in insertion order. -/
def find_networkx_id (identifier : String) (dm : List (Nat × NodeDetails))
    (searchBy : String) : Option Nat :=
  findAux (pyStrip identifier) searchBy dm

/-- Claim C8: in `id` mode the resolver returns the first node whose stored
unique id equals the stripped input exactly (case-sensitive, the stored
value compared as-is); in `name` mode it returns the first node whose name
matches the stripped input case-insensitively; concretely, searching for
`AB1` by id does not match a stored `ab1`, while searching for `Main Gate`
by name matches a stored `main gate`. -/
theorem find_networkx_id_matching (identifier : String)
    (dm : List (Nat × NodeDetails)) :
    (find_networkx_id identifier dm "id" =
      (dm.find? (fun e => e.2.qgis_id = pyStrip identifier)).map Prod.fst) ∧
    (find_networkx_id identifier dm "name" =
      (dm.find? (fun e => pyLower e.2.name = pyLower (pyStrip identifier))).map
        Prod.fst) ∧
    find_networkx_id "AB1" [(0, ⟨(0, 0), "gate", "ab1"⟩)] "id" = none ∧
    find_networkx_id "Main Gate" [(0, ⟨(0, 0), "main gate", "g1"⟩)] "name" =
      some 0 := by
  refine ⟨?_, ?_, by decide, by decide⟩
  · unfold find_networkx_id
    induction dm with
    | nil => rfl
    | cons e rest ih =>
      rcases e with ⟨nid, d⟩
      by_cases h : d.qgis_id = pyStrip identifier
      · simp [findAux, List.find?, h]
      · simp [findAux, List.find?, h, ih]
  · unfold find_networkx_id
    induction dm with
    | nil => rfl
    | cons e rest ih =>
      rcases e with ⟨nid, d⟩
      by_cases h : pyLower d.name = pyLower (pyStrip identifier)
      · simp [findAux, List.find?, h]
      · simp [findAux, List.find?, h, ih]

/-! ## Graph Builder

Model of `build_network_graph` (`modified.py` lines 147-184).  A
`LineRecord` is one row of the road-lines GeoDataFrame: a LineString, a
MultiLineString (decomposed into its parts), or another geometry type
(skipped), plus an optional description (`none` models a missing column or
NaN value).  Shapely guarantees a LineString has at least two coordinates,
so the empty-coordinate guard below is dead code kept only to make the
embedding total.  The NetworkX edge store is an association list keyed by
the canonically ordered node pair; `G.add_edge` on an existing pair
overwrites the stored attributes. -/

inductive LineGeom where
  | lineString (coords : List (ℚ × ℚ))
  | multiLineString (parts : List (List (ℚ × ℚ)))
  | other
deriving DecidableEq

structure LineRecord where
  geom : LineGeom
  description : Option String
deriving DecidableEq

structure EdgeAttrs where
  geometryPath : List (ℚ × ℚ)
  description : String
deriving DecidableEq

/-- The simple segments a record contributes: a LineString is itself, a
MultiLineString contributes its parts, other geometry types are skipped. -/
def segmentsOf : LineGeom → List (List (ℚ × ℚ))
  | LineGeom.lineString c => [c]
  | LineGeom.multiLineString ps => ps
  | LineGeom.other => []

/-- The description label of a record: the `description` attribute when
present, else `unnamed path`; stripped at edge insertion. -/
def descOf (r : LineRecord) : String :=
  pyStrip (match r.description with
    | some s => s
    | none => "unnamed path")

/-- The flattened, order-preserving list of (segment, description) pairs
the two nested loops of `build_network_graph` process. -/
def flatSegs (lines : List LineRecord) : List (List (ℚ × ℚ) × String) :=
  (lines.map (fun r => (segmentsOf r.geom).map (fun c => (c, descOf r)))).flatten

/-- Canonically ordered node pair modelling NetworkX's unordered edge key. -/
def canonPair (u v : Nat) : Nat × Nat := if u ≤ v then (u, v) else (v, u)

/-- Insert-or-overwrite in the edge store, the behavior of `G.add_edge`
for an undirected NetworkX graph. -/
def replaceEdge (k : Nat × Nat) (a : EdgeAttrs) :
    List ((Nat × Nat) × EdgeAttrs) → List ((Nat × Nat) × EdgeAttrs)
  | [] => [(k, a)]
  | (k9, a9) :: rest =>
    if k9 = k then (k, a) :: rest else (k9, a9) :: replaceEdge k a rest

/-- First-match lookup in the edge store. -/
def edgeLookup : List ((Nat × Nat) × EdgeAttrs) → Nat × Nat → Option EdgeAttrs
  | [], _ => none
  | (k9, a9) :: rest, k => if k9 = k then some a9 else edgeLookup rest k

/-- Resolution of one segment: keys of its first and last coordinate are
looked up in the coordinate map; the segment yields an edge exactly when
both resolve and the two ids differ. -/
def resolvedSeg (cm : List (String × Nat)) (p : Nat)
    (sd : List (ℚ × ℚ) × String) : Option ((Nat × Nat) × EdgeAttrs) :=
  match sd.1.head?, sd.1.getLast? with
  | some st, some en =>
    match strLookup cm (coordKey p st.1 st.2), strLookup cm (coordKey p en.1 en.2) with
    | some u, some v =>
      if u ≠ v then some (canonPair u v, ⟨sd.1, sd.2⟩) else none
    | _, _ => none
  | _, _ => none

/-- Processing of one segment against the edge store. -/
def addSegment (cm : List (String × Nat)) (p : Nat)
    (es : List ((Nat × Nat) × EdgeAttrs)) (sd : List (ℚ × ℚ) × String) :
    List ((Nat × Nat) × EdgeAttrs) :=
  match resolvedSeg cm p sd with
  | some ka => replaceEdge ka.1 ka.2 es
  | none => es

/-- Model of `build_network_graph`: all node ids from the coordinate map
(`G.add_nodes_from`), then every processed segment folded into the edge
store in processing order. -/
def build_network_graph (lines : List LineRecord) (cm : List (String × Nat))
    (p : Nat) : List Nat × List ((Nat × Nat) × EdgeAttrs) :=
  (cm.map Prod.snd, (flatSegs lines).foldl (fun es sd => addSegment cm p es sd) [])

theorem mem_replaceEdge {k : Nat × Nat} {a : EdgeAttrs}
    {es : List ((Nat × Nat) × EdgeAttrs)} {x : (Nat × Nat) × EdgeAttrs}
    (h : x ∈ replaceEdge k a es) : x = (k, a) ∨ x ∈ es := by
  induction es with
  | nil => simp [replaceEdge] at h; exact Or.inl h
  | cons e rest ih =>
    rcases e with ⟨k9, a9⟩
    by_cases hk : k9 = k
    · simp [replaceEdge, hk] at h
      rcases h with h | h
      · exact Or.inl h
      · exact Or.inr (List.mem_cons_of_mem _ h)
    · simp [replaceEdge, hk] at h
      rcases h with h | h
      · exact Or.inr (by simp [h])
      · rcases ih h with h2 | h2
        · exact Or.inl h2
        · exact Or.inr (List.mem_cons_of_mem _ h2)

theorem strLookup_mem_values {cm : List (String × Nat)} {k : String} {v : Nat}
    (h : strLookup cm k = some v) : v ∈ cm.map Prod.snd := by
  induction cm with
  | nil => simp [strLookup] at h
  | cons e rest ih =>
    rcases e with ⟨k9, v9⟩
    by_cases hk : k9 = k
    · simp [strLookup, hk] at h
      simp [h]
    · simp [strLookup, hk] at h
      simp [ih h]

/-- Every edge produced by resolving a segment joins two distinct resolved
node ids. -/
theorem resolvedSeg_good {cm : List (String × Nat)} {p : Nat}
    {sd : List (ℚ × ℚ) × String} {k : Nat × Nat} {a : EdgeAttrs}
    (h : resolvedSeg cm p sd = some (k, a)) :
    k.1 ≠ k.2 ∧ k.1 ∈ cm.map Prod.snd ∧ k.2 ∈ cm.map Prod.snd := by
  unfold resolvedSeg at h
  rcases hst : sd.1.head? with _ | st
  · simp [hst] at h
  rcases hen : sd.1.getLast? with _ | en
  · simp [hst, hen] at h
  simp only [hst, hen] at h
  rcases hu : strLookup cm (coordKey p st.1 st.2) with _ | u
  · simp [hu] at h
  rcases hv : strLookup cm (coordKey p en.1 en.2) with _ | v
  · simp [hu, hv] at h
  simp only [hu, hv] at h
  by_cases huv : u ≠ v
  · rw [if_pos huv] at h
    have hk : k = canonPair u v := by
      have := Option.some.inj h
      exact (congrArg Prod.fst this).symm
    have hu9 := strLookup_mem_values hu
    have hv9 := strLookup_mem_values hv
    unfold canonPair at hk
    by_cases hle : u ≤ v
    · rw [if_pos hle] at hk
      subst hk
      exact ⟨huv, hu9, hv9⟩
    · rw [if_neg hle] at hk
      subst hk
      exact ⟨fun hh => huv hh.symm, hv9, hu9⟩
  · rw [if_neg huv] at h
    exact absurd h (by simp)

theorem foldl_addSegment_good (cm : List (String × Nat)) (p : Nat) :
    ∀ (segs : List (List (ℚ × ℚ) × String)) (es : List ((Nat × Nat) × EdgeAttrs)),
      (∀ x ∈ es, x.1.1 ≠ x.1.2 ∧ x.1.1 ∈ cm.map Prod.snd ∧ x.1.2 ∈ cm.map Prod.snd) →
      ∀ x ∈ segs.foldl (fun es2 sd => addSegment cm p es2 sd) es,
        x.1.1 ≠ x.1.2 ∧ x.1.1 ∈ cm.map Prod.snd ∧ x.1.2 ∈ cm.map Prod.snd := by
  intro segs
  induction segs with
  | nil => intro es hes x hx; exact hes x hx
  | cons sd rest ih =>
    intro es hes x hx
    simp only [List.foldl_cons] at hx
    refine ih (addSegment cm p es sd) ?_ x hx
    intro y hy
    unfold addSegment at hy
    rcases hres : resolvedSeg cm p sd with _ | ka
    · rw [hres] at hy; exact hes y hy
    · rw [hres] at hy
      rcases mem_replaceEdge hy with h | h
      · subst h
        exact resolvedSeg_good hres
      · exact hes y h

/-- Claim C6: the built graph never contains a self-loop, and every edge
endpoint is a node id resolved from the coordinate map (segments with an
unresolved endpoint or equal endpoints are dropped without error). -/
theorem build_graph_no_self_loop (lines : List LineRecord)
    (cm : List (String × Nat)) (p : Nat) :
    ∀ e ∈ (build_network_graph lines cm p).2,
      e.1.1 ≠ e.1.2 ∧ e.1.1 ∈ (build_network_graph lines cm p).1 ∧
        e.1.2 ∈ (build_network_graph lines cm p).1 := by
  intro e he
  exact foldl_addSegment_good cm p (flatSegs lines) [] (by simp) e he

unseal Rat.mul Rat.add Rat.sub Rat.inv in
/-- Witness for claim C6: a single road segment between two known
coordinates produces the expected non-loop edge between resolved ids. -/
theorem build_graph_no_self_loop_witness :
    ((((0, 1), ⟨[(0, 0), (1, 0)], "Main Road"⟩) : (Nat × Nat) × EdgeAttrs) ∈
      (build_network_graph
        [⟨LineGeom.lineString [(0, 0), (1, 0)], some "Main Road"⟩]
        [("0.000000,0.000000", 0), ("1.000000,0.000000", 1)] 6).2) ∧
      ((0 : Nat) ≠ 1 ∧
        (0 : Nat) ∈ (build_network_graph
          [⟨LineGeom.lineString [(0, 0), (1, 0)], some "Main Road"⟩]
          [("0.000000,0.000000", 0), ("1.000000,0.000000", 1)] 6).1 ∧
        (1 : Nat) ∈ (build_network_graph
          [⟨LineGeom.lineString [(0, 0), (1, 0)], some "Main Road"⟩]
          [("0.000000,0.000000", 0), ("1.000000,0.000000", 1)] 6).1) :=
  ⟨by decide,
    build_graph_no_self_loop
      [⟨LineGeom.lineString [(0, 0), (1, 0)], some "Main Road"⟩]
      [("0.000000,0.000000", 0), ("1.000000,0.000000", 1)] 6
      ((0, 1), ⟨[(0, 0), (1, 0)], "Main Road"⟩) (by decide)⟩

/-- The attributes of the last processed segment that resolved to key `k`,
in processing order (`none` when no segment resolved to `k`). -/
def lastHit (k : Nat × Nat) : List ((Nat × Nat) × EdgeAttrs) → Option EdgeAttrs
  | [] => none
  | ka :: rest =>
    match lastHit k rest with
    | some a => some a
    | none => if ka.1 = k then some ka.2 else none

theorem edgeLookup_replaceEdge_same (es : List ((Nat × Nat) × EdgeAttrs))
    (k : Nat × Nat) (a : EdgeAttrs) : edgeLookup (replaceEdge k a es) k = some a := by
  induction es with
  | nil => simp [replaceEdge, edgeLookup]
  | cons e rest ih =>
    rcases e with ⟨k9, a9⟩
    by_cases hk : k9 = k
    · simp [replaceEdge, hk, edgeLookup]
    · simp [replaceEdge, hk, edgeLookup, ih]

theorem edgeLookup_replaceEdge_other (es : List ((Nat × Nat) × EdgeAttrs))
    {k9 k : Nat × Nat} (a : EdgeAttrs) (h : k9 ≠ k) :
    edgeLookup (replaceEdge k9 a es) k = edgeLookup es k := by
  induction es with
  | nil => simp [replaceEdge, edgeLookup, h]
  | cons e rest ih =>
    rcases e with ⟨k8, a8⟩
    by_cases hk : k8 = k9
    · simp [replaceEdge, hk, edgeLookup, h]
    · simp [replaceEdge, hk, edgeLookup, ih]

theorem foldl_replace_lastHit (k : Nat × Nat) :
    ∀ (l : List ((Nat × Nat) × EdgeAttrs)) (acc : List ((Nat × Nat) × EdgeAttrs)),
      edgeLookup (l.foldl (fun es ka => replaceEdge ka.1 ka.2 es) acc) k =
        match lastHit k l with
        | some a => some a
        | none => edgeLookup acc k := by
  intro l
  induction l with
  | nil => intro acc; simp [lastHit]
  | cons ka rest ih =>
    intro acc
    simp only [List.foldl_cons]
    rw [ih]
    rcases hrest : lastHit k rest with _ | a
    · simp only [lastHit, hrest]
      by_cases hk : ka.1 = k
      · rw [if_pos hk, hk, edgeLookup_replaceEdge_same]
      · rw [if_neg hk, edgeLookup_replaceEdge_other _ _ hk]
    · simp only [lastHit, hrest]

theorem foldl_addSegment_eq (cm : List (String × Nat)) (p : Nat) :
    ∀ (segs : List (List (ℚ × ℚ) × String)) (acc : List ((Nat × Nat) × EdgeAttrs)),
      segs.foldl (fun es sd => addSegment cm p es sd) acc =
        (segs.filterMap (resolvedSeg cm p)).foldl
          (fun es ka => replaceEdge ka.1 ka.2 es) acc := by
  intro segs
  induction segs with
  | nil => intro acc; rfl
  | cons sd rest ih =>
    intro acc
    rcases hres : resolvedSeg cm p sd with _ | ka
    · have h1 : addSegment cm p acc sd = acc := by simp [addSegment, hres]
      simp only [List.foldl_cons, List.filterMap_cons, hres, h1]
      exact ih acc
    · have h1 : addSegment cm p acc sd = replaceEdge ka.1 ka.2 acc := by
        simp [addSegment, hres]
      simp only [List.foldl_cons, List.filterMap_cons, hres, h1]
      exact ih (replaceEdge ka.1 ka.2 acc)

theorem keys_replaceEdge (k : Nat × Nat) (a : EdgeAttrs) :
    ∀ es : List ((Nat × Nat) × EdgeAttrs),
      (replaceEdge k a es).map Prod.fst =
        if k ∈ es.map Prod.fst then es.map Prod.fst else es.map Prod.fst ++ [k] := by
  intro es
  induction es with
  | nil => simp [replaceEdge]
  | cons e rest ih =>
    rcases e with ⟨k9, a9⟩
    by_cases hk : k9 = k
    · simp [replaceEdge, hk]
    · by_cases hmem : k ∈ rest.map Prod.fst
      · simp [replaceEdge, hk, ih, hmem, Ne.symm hk]
      · simp [replaceEdge, hk, ih, hmem, Ne.symm hk]

theorem foldl_replace_keys_nodup :
    ∀ (l acc : List ((Nat × Nat) × EdgeAttrs)),
      (acc.map Prod.fst).Nodup →
      ((l.foldl (fun es ka => replaceEdge ka.1 ka.2 es) acc).map Prod.fst).Nodup := by
  intro l
  induction l with
  | nil => intro acc h; exact h
  | cons ka rest ih =>
    intro acc h
    simp only [List.foldl_cons]
    refine ih _ ?_
    rw [keys_replaceEdge]
    by_cases hmem : ka.1 ∈ acc.map Prod.fst
    · simp [hmem, h]
    · simp [hmem, List.nodup_append, h]

/-- Claim C7: the edge store holds exactly one entry per unordered node
pair, and the stored attributes for a pair are those of the last processed
segment that resolved to that pair (last write wins). -/
theorem build_graph_last_write_wins (lines : List LineRecord)
    (cm : List (String × Nat)) (p : Nat) (k : Nat × Nat) :
    edgeLookup (build_network_graph lines cm p).2 k =
        lastHit k ((flatSegs lines).filterMap (resolvedSeg cm p)) ∧
      ((build_network_graph lines cm p).2.map Prod.fst).Nodup := by
  constructor
  · unfold build_network_graph
    rw [foldl_addSegment_eq, foldl_replace_lastHit]
    rcases h : lastHit k ((flatSegs lines).filterMap (resolvedSeg cm p)) with _ | a
    · simp [edgeLookup]
    · simp
  · unfold build_network_graph
    rw [foldl_addSegment_eq]
    exact foldl_replace_keys_nodup _ [] (by simp)

unseal Rat.mul Rat.add Rat.sub Rat.inv in
/-- Witness for the amended claim C5: a record with both fields absent gets
both synthetic placeholders for node id 0. -/
theorem prepare_placeholder_semantics_witness :
    firstWithKey 6 "0.000000,0.000000" [⟨0, 0, none, none⟩] =
        some ⟨0, 0, none, none⟩ ∧
      ∃ nid d,
        strLookup (prepare_graph_nodes [⟨0, 0, none, none⟩] 6).1
            "0.000000,0.000000" = some nid ∧
        detLookup (prepare_graph_nodes [⟨0, 0, none, none⟩] 6).2 nid = some d ∧
        ((⟨0, 0, none, none⟩ : PointRecord).name = none →
          d.name = "Unnamed_Node_NX_" ++ Nat.repr nid) ∧
        ((⟨0, 0, none, none⟩ : PointRecord).uid = none →
          d.qgis_id = "QGIS_ID_NX_" ++ Nat.repr nid) ∧
        (∀ s, (⟨0, 0, none, none⟩ : PointRecord).name = some s →
          d.name = pyStrip s) ∧
        (∀ s, (⟨0, 0, none, none⟩ : PointRecord).uid = some s →
          d.qgis_id = pyStrip s) :=
  ⟨by decide,
    prepare_placeholder_semantics [⟨0, 0, none, none⟩] 6 "0.000000,0.000000"
      ⟨0, 0, none, none⟩ (by decide)⟩

/-! ## Pathfinder (BFS)

Model of `bfs_shortest_path` (`modified.py` lines 18-41).  The NetworkX
graph is abstracted to its node set plus an adjacency-list function
(`graph.neighbors` reports neighbors in a fixed stored order, and
`node in graph` is node-set membership).  The `deque` of
`(node, path-so-far)` pairs is a list popped at the head and extended at
the tail; the `visited` set is a `Finset`.  The `while queue:` loop is
given fuel `2 * |nodes| + 1`, which the correctness proof shows is never
exhausted: each node is enqueued at most once. -/

structure BFSGraph where
  nodes : Finset Nat
  adj : Nat → List Nat

/-- `p` is a walk in `G` from `s` to `t`: it starts at `s`, ends at `t`,
and each consecutive pair is an adjacency step. -/
def isPathFromTo (G : BFSGraph) (s t : Nat) (p : List Nat) : Prop :=
  p.head? = some s ∧ p.getLast? = some t ∧ p.Chain' (fun a b => b ∈ G.adj a)

/-- Executable adjacency-chain check, kernel-reducible. -/
def chainOk (G : BFSGraph) : List Nat → Bool
  | [] => true
  | [_] => true
  | a :: b :: rest => ((G.adj a).contains b && chainOk G (b :: rest))

theorem chainOk_iff (G : BFSGraph) :
    ∀ p : List Nat, chainOk G p = true ↔ p.Chain' (fun a b => b ∈ G.adj a)
  | [] => by simp [chainOk]
  | [a] => by simp [chainOk]
  | a :: b :: rest => by
    have ih := chainOk_iff G (b :: rest)
    simp [chainOk, List.chain'_cons, ih]

instance (G : BFSGraph) (s t : Nat) (p : List Nat) :
    Decidable (isPathFromTo G s t p) :=
  decidable_of_iff
    (p.head? = some s ∧ p.getLast? = some t ∧ chainOk G p = true)
    (by rw [chainOk_iff]; rfl)

/-- `t` is reachable from `s` in `G`. -/
def Reaches (G : BFSGraph) (s t : Nat) : Prop := ∃ p, isPathFromTo G s t p

/-- `d` is the true minimum hop-count from `s` to `t`: some walk has
exactly `d` edges (`d + 1` nodes) and no walk has fewer. -/
def HopDist (G : BFSGraph) (s t d : Nat) : Prop :=
  (∃ p, isPathFromTo G s t p ∧ p.length = d + 1) ∧
    ∀ q, isPathFromTo G s t q → d + 1 ≤ q.length

/-- The inner `for neighbor in graph.neighbors(current)` loop: each
neighbor not yet visited is marked visited and enqueued with its extended
path, in adjacency order. -/
def processNeighbors (pp : List Nat) (visited : Finset Nat) :
    List Nat → Finset Nat × List (Nat × List Nat)
  | [] => (visited, [])
  | nb :: rest =>
    if nb ∈ visited then processNeighbors pp visited rest
    else
      let r := processNeighbors pp (insert nb visited) rest
      (r.1, (nb, pp ++ [nb]) :: r.2)

/-- The `while queue:` loop of `bfs_shortest_path`, with explicit fuel. -/
def bfsLoop (G : BFSGraph) (endN : Nat) :
    Nat → List (Nat × List Nat) → Finset Nat → Option (List Nat)
  | 0, _, _ => none
  | _ + 1, [], _ => none
  | fuel + 1, (c, pp) :: rest, visited =>
    if c = endN then some pp
    else
      let r := processNeighbors pp visited (G.adj c)
      bfsLoop G endN fuel (rest ++ r.2) r.1

/-- Model of `bfs_shortest_path`: the start-equals-end check precedes the
membership check, exactly as in the source. -/
def bfs_shortest_path (G : BFSGraph) (startN endN : Nat) : Option (List Nat) :=
  if startN = endN then some [startN]
  else if startN ∉ G.nodes ∨ endN ∉ G.nodes then none
  else bfsLoop G endN (2 * G.nodes.card + 1) [(startN, [startN])] {startN}

/-- Claim C3: for every graph and every id `x` — member of the graph or
not — `bfs_shortest_path(graph, x, x)` returns the single-element path
`[x]`, never `None`, because the start-equals-end check is made before the
membership check. -/
theorem bfs_start_eq_end (G : BFSGraph) (x : Nat) :
    bfs_shortest_path G x x = some [x] := by
  simp [bfs_shortest_path]

/-- Claim C2 (amended): when start differs from end and either id is
absent from the graph, `bfs_shortest_path` returns `None` — the very same
value it returns for valid ids in disjoint components, so the two outcomes
are not distinguishable from this function's result; the "node not found"
versus "no path" distinction is made by the caller, which resolves ids via
`find_networkx_id` before invoking BFS. -/
theorem bfs_absent_node_none (G : BFSGraph) (s e : Nat) (hne : s ≠ e)
    (h : s ∉ G.nodes ∨ e ∉ G.nodes) : bfs_shortest_path G s e = none := by
  unfold bfs_shortest_path
  rw [if_neg hne, if_pos h]

/-- A four-node graph with two components `0 - 1` and `2 - 3`. -/
def twoComp : BFSGraph :=
  ⟨{0, 1, 2, 3}, fun n =>
    match n with
    | 0 => [1]
    | 1 => [0]
    | 2 => [3]
    | 3 => [2]
    | _ => []⟩

/-- Walking a graph cannot leave a set that is closed under adjacency. -/
theorem path_mem_closed (G : BFSGraph) (S : Finset Nat)
    (hcl : ∀ u ∈ S, ∀ v ∈ G.adj u, v ∈ S) :
    ∀ (p : List Nat) (a t : Nat), isPathFromTo G a t p → a ∈ S → t ∈ S := by
  intro p
  induction p with
  | nil => intro a t hp ha; rcases hp with ⟨hh, -, -⟩; simp at hh
  | cons x rest ih =>
    intro a t hp ha
    rcases hp with ⟨hh, hl, hc⟩
    have hx : x = a := by simpa using hh
    subst hx
    cases rest with
    | nil =>
      have ht : x = t := by simpa using hl
      subst ht; exact ha
    | cons y rest2 =>
      have hy : y ∈ G.adj x := (List.chain'_cons.mp hc).1
      have hc2 := (List.chain'_cons.mp hc).2
      have hl2 : (y :: rest2).getLast? = some t := by
        rw [List.getLast?_cons_cons] at hl; exact hl
      exact ih y t ⟨rfl, hl2, hc2⟩ (hcl x ha y hy)

theorem reaches_mem_closed (G : BFSGraph) (S : Finset Nat) (s t : Nat)
    (hs : s ∈ S) (hcl : ∀ u ∈ S, ∀ v ∈ G.adj u, v ∈ S)
    (h : Reaches G s t) : t ∈ S := by
  rcases h with ⟨p, hp⟩
  exact path_mem_closed G S hcl p s t hp hs

/-- Counterexample to claim C2 as stated: on `twoComp`, querying the valid
pair `0, 2` (disjoint components) and the pair `0, 9` (with `9` absent)
produce the identical result `None`; `bfs_shortest_path` does not
distinguish "node not found" from "no path between valid nodes". -/
theorem bfs_absent_indistinguishable :
    (0 : Nat) ∈ twoComp.nodes ∧ (2 : Nat) ∈ twoComp.nodes ∧
      (9 : Nat) ∉ twoComp.nodes ∧ (0 : Nat) ≠ 9 ∧ ¬ Reaches twoComp 0 2 ∧
      bfs_shortest_path twoComp 0 9 = bfs_shortest_path twoComp 0 2 := by
  refine ⟨by decide, by decide, by decide, by decide, ?_, by decide⟩
  intro h
  have h2 : (2 : Nat) ∈ ({0, 1} : Finset Nat) :=
    reaches_mem_closed twoComp {0, 1} 0 2 (by decide) (by decide) h
  exact absurd h2 (by decide)

/-- Witness for the amended claim C2 at a concrete absent end node. -/
theorem bfs_absent_node_none_witness :
    ((0 : Nat) ≠ 9 ∧ (9 : Nat) ∉ twoComp.nodes) ∧
      bfs_shortest_path twoComp 0 9 = none :=
  ⟨⟨by decide, by decide⟩,
    bfs_absent_node_none twoComp 0 9 (by decide) (Or.inr (by decide))⟩

theorem path_singleton (G : BFSGraph) (s : Nat) : isPathFromTo G s s [s] :=
  ⟨rfl, rfl, by simp⟩

theorem path_ne_nil {G : BFSGraph} {s t : Nat} {p : List Nat}
    (h : isPathFromTo G s t p) : p ≠ [] := by
  rcases h with ⟨hh, -, -⟩
  intro he; subst he; simp at hh

theorem path_length_pos {G : BFSGraph} {s t : Nat} {p : List Nat}
    (h : isPathFromTo G s t p) : 1 ≤ p.length := by
  have := path_ne_nil h
  cases p with
  | nil => exact absurd rfl this
  | cons x rest => simp

theorem path_extend {G : BFSGraph} {s c : Nat} {p : List Nat}
    (h : isPathFromTo G s c p) {b : Nat} (hb : b ∈ G.adj c) :
    isPathFromTo G s b (p ++ [b]) := by
  rcases h with ⟨hh, hl, hc⟩
  refine ⟨?_, ?_, ?_⟩
  · rw [List.head?_append_of_ne_nil _ (path_ne_nil ⟨hh, hl, hc⟩)]
    exact hh
  · simp
  · rw [List.chain'_append]
    refine ⟨hc, List.chain'_singleton b, ?_⟩
    intro x hx y hy
    rw [hl] at hx
    simp at hx hy
    subst hx; subst hy
    exact hb

theorem hopDist_unique {G : BFSGraph} {s t d d2 : Nat}
    (h1 : HopDist G s t d) (h2 : HopDist G s t d2) : d = d2 := by
  rcases h1 with ⟨⟨p1, hp1, hl1⟩, hmin1⟩
  rcases h2 with ⟨⟨p2, hp2, hl2⟩, hmin2⟩
  have a1 := hmin1 p2 hp2
  have a2 := hmin2 p1 hp1
  omega

theorem exists_hopDist {G : BFSGraph} {s t : Nat} (h : Reaches G s t) :
    ∃ d, HopDist G s t d := by
  classical
  rcases h with ⟨p, hp⟩
  have hex : ∃ n, ∃ q, isPathFromTo G s t q ∧ q.length = n + 1 :=
    ⟨p.length - 1, p, hp, by have := path_length_pos hp; omega⟩
  refine ⟨Nat.find hex, Nat.find_spec hex, ?_⟩
  intro q hq
  by_contra hlt
  push_neg at hlt
  have hq1 := path_length_pos hq
  have hmem : ∃ r, isPathFromTo G s t r ∧ r.length = (q.length - 1) + 1 :=
    ⟨q, hq, by omega⟩
  exact Nat.find_min hex (by omega) hmem

theorem hopDist_reaches {G : BFSGraph} {s t d : Nat} (h : HopDist G s t d) :
    Reaches G s t := by
  rcases h with ⟨⟨p, hp, -⟩, -⟩
  exact ⟨p, hp⟩

theorem hopDist_self (G : BFSGraph) (s : Nat) : HopDist G s s 0 :=
  ⟨⟨[s], path_singleton G s, rfl⟩, fun _ hq => path_length_pos hq⟩

theorem hopDist_zero {G : BFSGraph} {s t : Nat} (h : HopDist G s t 0) :
    t = s := by
  rcases h with ⟨⟨p, hp, hl⟩, -⟩
  rcases hp with ⟨hh, hlast, -⟩
  cases p with
  | nil => simp at hl
  | cons x rest =>
    have : rest = [] := by
      cases rest with
      | nil => rfl
      | cons y r2 => simp at hl
    subst this
    simp at hh hlast
    subst hh
    exact hlast.symm

theorem hopDist_step {G : BFSGraph} {s c b dc db : Nat} (hc : HopDist G s c dc)
    (hb : b ∈ G.adj c) (hd : HopDist G s b db) : db ≤ dc + 1 := by
  rcases hc with ⟨⟨p, hp, hl⟩, -⟩
  have h2 := path_extend hp hb
  have h3 := hd.2 (p ++ [b]) h2
  simp at h3
  omega

theorem hopDist_pred {G : BFSGraph} {s w d : Nat} (h : HopDist G s w (d + 1)) :
    ∃ z, w ∈ G.adj z ∧ HopDist G s z d := by
  rcases h with ⟨⟨p, hp, hl⟩, hmin⟩
  have hpne : p ≠ [] := path_ne_nil hp
  have hw : p.getLast hpne = w := by
    rcases hp with ⟨-, hlast, -⟩
    rw [List.getLast?_eq_getLast p hpne] at hlast
    exact Option.some.inj hlast
  have hsplit : p.dropLast ++ [w] = p := by
    rw [← hw]; exact List.dropLast_append_getLast hpne
  have hlen2 : p.dropLast.length = d + 1 := by
    have := p.length_dropLast
    omega
  have hdne : p.dropLast ≠ [] := by
    intro he; rw [he] at hlen2; simp at hlen2
  rcases hp with ⟨hh, hlast, hc⟩
  have hc2 : (p.dropLast ++ [w]).Chain' (fun a b => b ∈ G.adj a) := by
    rw [hsplit]; exact hc
  have hcc := List.chain'_append.mp hc2
  have hzlast : p.dropLast.getLast? = some (p.dropLast.getLast hdne) :=
    List.getLast?_eq_getLast _ hdne
  have hzadj : w ∈ G.adj (p.dropLast.getLast hdne) := by
    refine hcc.2.2 _ ?_ w ?_
    · rw [hzlast]; rfl
    · rfl
  have hh2 : p.dropLast.head? = some s := by
    rw [← hsplit] at hh
    rw [List.head?_append_of_ne_nil _ hdne] at hh
    exact hh
  have hpz : isPathFromTo G s (p.dropLast.getLast hdne) p.dropLast :=
    ⟨hh2, hzlast, hcc.1⟩
  refine ⟨p.dropLast.getLast hdne, hzadj, ⟨⟨p.dropLast, hpz, hlen2⟩, ?_⟩⟩
  intro q hq
  by_contra hlt
  push_neg at hlt
  have hqw := path_extend hq hzadj
  have hm := hmin (q ++ [w]) hqw
  simp at hm
  omega

theorem pn_subset (pp : List Nat) :
    ∀ (nbs : List Nat) (V : Finset Nat), V ⊆ (processNeighbors pp V nbs).1 := by
  intro nbs
  induction nbs with
  | nil => intro V; simp [processNeighbors]
  | cons nb rest ih =>
    intro V
    by_cases h : nb ∈ V
    · simp only [processNeighbors, h, if_true]
      exact ih V
    · simp only [processNeighbors, h, if_false]
      exact subset_trans (Finset.subset_insert nb V) (ih (insert nb V))

theorem pn_mem_adj (pp : List Nat) :
    ∀ (nbs : List Nat) (V : Finset Nat) (b : Nat), b ∈ nbs →
      b ∈ (processNeighbors pp V nbs).1 := by
  intro nbs
  induction nbs with
  | nil => intro V b hb; simp at hb
  | cons nb rest ih =>
    intro V b hb
    by_cases h : nb ∈ V
    · simp only [processNeighbors, h, if_true]
      rcases List.mem_cons.mp hb with rfl | hb
      · exact pn_subset pp rest V h
      · exact ih V b hb
    · simp only [processNeighbors, h, if_false]
      rcases List.mem_cons.mp hb with rfl | hb
      · exact pn_subset pp rest (insert b V) (Finset.mem_insert_self b V)
      · exact ih (insert nb V) b hb

theorem pn_visited_eq (pp : List Nat) :
    ∀ (nbs : List Nat) (V : Finset Nat),
      (processNeighbors pp V nbs).1 =
        V ∪ ((processNeighbors pp V nbs).2.map Prod.fst).toFinset := by
  intro nbs
  induction nbs with
  | nil => intro V; simp [processNeighbors]
  | cons nb rest ih =>
    intro V
    by_cases h : nb ∈ V
    · simp only [processNeighbors, h, if_true]
      exact ih V
    · simp only [processNeighbors, h, if_false]
      rw [ih (insert nb V)]
      ext a
      simp [Finset.mem_insert]
      try tauto

theorem pn_entries (pp : List Nat) :
    ∀ (nbs : List Nat) (V : Finset Nat) (ent : Nat × List Nat),
      ent ∈ (processNeighbors pp V nbs).2 →
      ent.1 ∈ nbs ∧ ent.1 ∉ V ∧ ent.2 = pp ++ [ent.1] := by
  intro nbs
  induction nbs with
  | nil => intro V ent hent; simp [processNeighbors] at hent
  | cons nb rest ih =>
    intro V ent hent
    by_cases h : nb ∈ V
    · simp only [processNeighbors, h, if_true] at hent
      rcases ih V ent hent with ⟨h1, h2, h3⟩
      exact ⟨List.mem_cons_of_mem _ h1, h2, h3⟩
    · simp only [processNeighbors, h, if_false] at hent
      rcases List.mem_cons.mp hent with rfl | hent
      · exact ⟨List.mem_cons_self _ _, h, rfl⟩
      · rcases ih (insert nb V) ent hent with ⟨h1, h2, h3⟩
        refine ⟨List.mem_cons_of_mem _ h1, ?_, h3⟩
        intro hv
        exact h2 (Finset.mem_insert_of_mem hv)

theorem pn_card (pp : List Nat) :
    ∀ (nbs : List Nat) (V : Finset Nat),
      (processNeighbors pp V nbs).1.card =
        V.card + (processNeighbors pp V nbs).2.length := by
  intro nbs
  induction nbs with
  | nil => intro V; simp [processNeighbors]
  | cons nb rest ih =>
    intro V
    by_cases h : nb ∈ V
    · simp only [processNeighbors, h, if_true]
      exact ih V
    · simp only [processNeighbors, h, if_false]
      rw [ih (insert nb V), Finset.card_insert_of_not_mem h]
      simp
      try omega

theorem sorted_const {l : List Nat} {v : Nat} (h : ∀ x ∈ l, x = v) :
    l.Sorted (fun a b => a ≤ b) := by
  induction l with
  | nil => exact List.sorted_nil
  | cons x rest ih =>
    rw [List.sorted_cons]
    constructor
    · intro b hb
      rw [h x (List.mem_cons_self x rest), h b (List.mem_cons_of_mem _ hb)]
    · exact ih fun y hy => h y (List.mem_cons_of_mem _ hy)

/-- Loop invariant of the BFS queue, stated against a fixed distance
function `dist` (later instantiated with the true hop distances from the
start node).  `q` is the queue, `V` the visited set, and `P` the ghost set
of already dequeued-and-expanded nodes. -/
structure BFSInv (G : BFSGraph) (s e : Nat) (dist : Nat → Nat)
    (q : List (Nat × List Nat)) (V P : Finset Nat) : Prop where
  path_inv : ∀ ent ∈ q, isPathFromTo G s ent.1 ent.2 ∧ ent.2.length = dist ent.1 + 1
  sorted_inv : (q.map (fun ent => dist ent.1)).Sorted (fun a b => a ≤ b)
  bound_inv : ∀ x ∈ q.map (fun ent => dist ent.1),
    ∀ y ∈ q.map (fun ent => dist ent.1), y ≤ x + 1
  level_inv : ∀ w, Reaches G s w → w ∉ V →
    ∀ ent, q.head? = some ent → dist ent.1 < dist w
  vis_eq : V = P ∪ (q.map Prod.fst).toFinset
  closed_P : ∀ u ∈ P, ∀ v ∈ G.adj u, v ∈ V
  end_not_P : e ∉ P
  start_V : s ∈ V
  V_sub : V ⊆ G.nodes

theorem bfs_inv_step (G : BFSGraph) (s e : Nat) (dist : Nat → Nat)
    (hclosed : ∀ u, ∀ v ∈ G.adj u, v ∈ G.nodes)
    (hdist : ∀ w, Reaches G s w → HopDist G s w (dist w))
    (c : Nat) (pp : List Nat) (rest : List (Nat × List Nat)) (V P : Finset Nat)
    (inv : BFSInv G s e dist ((c, pp) :: rest) V P) (hce : c ≠ e) :
    BFSInv G s e dist (rest ++ (processNeighbors pp V (G.adj c)).2)
      (processNeighbors pp V (G.adj c)).1 (insert c P) := by
  have hcpath := inv.path_inv (c, pp) (List.mem_cons_self _ _)
  have hreach_c : Reaches G s c := ⟨pp, hcpath.1⟩
  have hnewfacts : ∀ ent ∈ (processNeighbors pp V (G.adj c)).2,
      ent.1 ∈ G.adj c ∧ ent.1 ∉ V ∧ ent.2 = pp ++ [ent.1] :=
    fun ent hent => pn_entries pp (G.adj c) V ent hent
  have hnewreach : ∀ ent ∈ (processNeighbors pp V (G.adj c)).2, Reaches G s ent.1 := by
    intro ent hent
    exact ⟨pp ++ [ent.1], path_extend hcpath.1 (hnewfacts ent hent).1⟩
  have hnewdist : ∀ ent ∈ (processNeighbors pp V (G.adj c)).2,
      dist ent.1 = dist c + 1 := by
    intro ent hent
    have hle : dist ent.1 ≤ dist c + 1 :=
      hopDist_step (hdist c hreach_c) (hnewfacts ent hent).1
        (hdist ent.1 (hnewreach ent hent))
    have hlt : dist c < dist ent.1 :=
      inv.level_inv ent.1 (hnewreach ent hent) (hnewfacts ent hent).2.1 (c, pp) rfl
    omega
  have hnewpath : ∀ ent ∈ (processNeighbors pp V (G.adj c)).2,
      isPathFromTo G s ent.1 ent.2 ∧ ent.2.length = dist ent.1 + 1 := by
    intro ent hent
    rcases hnewfacts ent hent with ⟨hadj, hnv, hform⟩
    constructor
    · rw [hform]; exact path_extend hcpath.1 hadj
    · rw [hform, List.length_append, hcpath.2, hnewdist ent hent]
      simp
  have hdc_mem : dist c ∈ ((c, pp) :: rest).map (fun ent => dist ent.1) := by simp
  have hrest_le : ∀ ent ∈ rest, dist ent.1 ≤ dist c + 1 := by
    intro ent hent
    exact inv.bound_inv (dist c) hdc_mem (dist ent.1)
      (by exact List.mem_map_of_mem _ (List.mem_cons_of_mem _ hent))
  have hrest_ge : ∀ ent ∈ rest, dist c ≤ dist ent.1 := by
    intro ent hent
    have hs := inv.sorted_inv
    rw [List.map_cons] at hs
    exact (List.sorted_cons.mp hs).1 (dist ent.1) (List.mem_map_of_mem _ hent)
  refine ⟨?_, ?_, ?_, ?_, ?_, ?_, ?_, ?_, ?_⟩
  · intro ent hent
    rcases List.mem_append.mp hent with h | h
    · exact inv.path_inv ent (List.mem_cons_of_mem _ h)
    · exact hnewpath ent h
  · rw [List.map_append]
    have h1 : (rest.map (fun ent => dist ent.1)).Sorted (fun a b => a ≤ b) := by
      have hs := inv.sorted_inv
      rw [List.map_cons] at hs
      exact (List.sorted_cons.mp hs).2
    have h2 : (((processNeighbors pp V (G.adj c)).2).map
        (fun ent => dist ent.1)).Sorted (fun a b => a ≤ b) := by
      apply sorted_const
      intro x hx
      rcases List.mem_map.mp hx with ⟨ent, hent, hf⟩
      rw [← hf]; exact hnewdist ent hent
    have h3 : ∀ a ∈ rest.map (fun ent => dist ent.1),
        ∀ b ∈ ((processNeighbors pp V (G.adj c)).2).map (fun ent => dist ent.1),
        a ≤ b := by
      intro a ha b hb
      rcases List.mem_map.mp ha with ⟨ent, hent, hf⟩
      rcases List.mem_map.mp hb with ⟨ent2, hent2, hf2⟩
      rw [← hf, ← hf2, hnewdist ent2 hent2]
      have := hrest_le ent hent
      omega
    exact List.pairwise_append.mpr ⟨h1, h2, h3⟩
  · intro x hx y hy
    rw [List.map_append] at hx hy
    have hval : ∀ z, z ∈ rest.map (fun ent => dist ent.1) ∨
        z ∈ (processNeighbors pp V (G.adj c)).2.map (fun ent => dist ent.1) →
        dist c ≤ z ∧ z ≤ dist c + 1 := by
      intro z hz
      rcases hz with hz | hz
      · rcases List.mem_map.mp hz with ⟨ent, hent, hf⟩
        exact ⟨hf ▸ hrest_ge ent hent, hf ▸ hrest_le ent hent⟩
      · rcases List.mem_map.mp hz with ⟨ent, hent, hf⟩
        rw [← hf, hnewdist ent hent]
        omega
    have hx2 := hval x (List.mem_append.mp hx)
    have hy2 := hval y (List.mem_append.mp hy)
    omega
  · intro w hw hwV2 ent hhead
    have hwV : w ∉ V := fun h => hwV2 (pn_subset pp (G.adj c) V h)
    have hlt : dist c < dist w := inv.level_inv w hw hwV (c, pp) rfl
    have hentmem : ent ∈ rest ++ (processNeighbors pp V (G.adj c)).2 :=
      List.mem_of_mem_head? (by simp [hhead])
    have hbound : dist ent.1 ≤ dist c + 1 := by
      rcases List.mem_append.mp hentmem with h | h
      · exact hrest_le ent h
      · rw [hnewdist ent h]
    rcases Nat.lt_or_ge (dist ent.1) (dist c + 1) with hcase | hcase
    · omega
    · have hne : dist w ≠ dist c + 1 := by
        intro hww
        have hhd := hdist w hw
        rw [hww] at hhd
        rcases hopDist_pred hhd with ⟨z, hzadj, hzd⟩
        have hzreach : Reaches G s z := hopDist_reaches hzd
        have hzdist : dist z = dist c := hopDist_unique (hdist z hzreach) hzd
        have hzV : z ∈ V := by
          by_contra hzv
          have h7 : dist c < dist z := by
            simpa using inv.level_inv z hzreach hzv (c, pp) rfl
          omega
        rw [inv.vis_eq] at hzV
        rcases Finset.mem_union.mp hzV with hzP | hzq
        · exact hwV2 (pn_subset pp (G.adj c) V (inv.closed_P z hzP w hzadj))
        · have hzcases : z = c ∨ z ∈ rest.map Prod.fst := by
            rw [List.map_cons, List.mem_toFinset] at hzq
            exact List.mem_cons.mp hzq
          rcases hzcases with hzc | hzrest
          · exact hwV2 (pn_mem_adj pp (G.adj c) V w (hzc ▸ hzadj))
          · cases hr : rest with
            | nil => rw [hr] at hzrest; simp at hzrest
            | cons ent0 rest2 =>
              have hent0 : ent0 = ent := by
                rw [hr] at hhead
                simpa using hhead
              have heq : dist ent.1 = dist c + 1 := by omega
              have hs := inv.sorted_inv
              rw [List.map_cons] at hs
              have hs2 := (List.sorted_cons.mp hs).2
              rw [hr, List.map_cons] at hs2
              have hall := (List.sorted_cons.mp hs2).1
              rw [hr] at hzrest
              rcases List.mem_map.mp hzrest with ⟨entz, hentz, hfst⟩
              have hdz : dist entz.1 = dist c := by rw [hfst, hzdist]
              rcases List.mem_cons.mp hentz with hze | hentz2
              · rw [hze, hent0] at hdz
                omega
              · have hball := hall (dist entz.1) (List.mem_map_of_mem _ hentz2)
                rw [hent0] at hball
                omega
      omega
  · rw [pn_visited_eq pp (G.adj c) V, inv.vis_eq]
    ext a
    simp [List.map_append]
    try tauto
  · intro u hu v hv
    rcases Finset.mem_insert.mp hu with rfl | hu
    · exact pn_mem_adj pp (G.adj u) V v hv
    · exact pn_subset pp (G.adj c) V (inv.closed_P u hu v hv)
  · intro he2
    rcases Finset.mem_insert.mp he2 with h | h
    · exact hce h.symm
    · exact inv.end_not_P h
  · exact pn_subset pp (G.adj c) V inv.start_V
  · intro a ha
    rw [pn_visited_eq pp (G.adj c) V] at ha
    rcases Finset.mem_union.mp ha with h | h
    · exact inv.V_sub h
    · rw [List.mem_toFinset] at h
      rcases List.mem_map.mp h with ⟨ent, hent, hf⟩
      exact hclosed c a (hf ▸ (pn_entries pp (G.adj c) V ent hent).1)

theorem bfsLoop_sound (G : BFSGraph) (s e : Nat) :
    ∀ (fuel : Nat) (q : List (Nat × List Nat)) (V : Finset Nat),
      (∀ ent ∈ q, isPathFromTo G s ent.1 ent.2) →
      ∀ p, bfsLoop G e fuel q V = some p → isPathFromTo G s e p := by
  intro fuel
  induction fuel with
  | zero => intro q V hq p hp; simp [bfsLoop] at hp
  | succ fuel ih =>
    intro q V hq p hp
    cases q with
    | nil => simp [bfsLoop] at hp
    | cons ent rest =>
      rcases ent with ⟨c, pp⟩
      by_cases hce : c = e
      · simp only [bfsLoop] at hp
        rw [if_pos hce] at hp
        have hpp := hq (c, pp) (List.mem_cons_self _ _)
        rw [Option.some.inj hp] at hpp
        exact hce ▸ hpp
      · simp only [bfsLoop] at hp
        rw [if_neg hce] at hp
        refine ih _ _ ?_ p hp
        intro ent2 hent2
        rcases List.mem_append.mp hent2 with h | h
        · exact hq ent2 (List.mem_cons_of_mem _ h)
        · rcases pn_entries pp (G.adj c) V ent2 h with ⟨hadj, -, hform⟩
          rw [hform]
          exact path_extend (hq (c, pp) (List.mem_cons_self _ _)) hadj

theorem bfsLoop_complete (G : BFSGraph) (s e : Nat) (dist : Nat → Nat)
    (hclosed : ∀ u, ∀ v ∈ G.adj u, v ∈ G.nodes)
    (hdist : ∀ w, Reaches G s w → HopDist G s w (dist w))
    (hreach : Reaches G s e) :
    ∀ (fuel : Nat) (q : List (Nat × List Nat)) (V P : Finset Nat),
      BFSInv G s e dist q V P →
      q.length + 2 * (G.nodes.card - V.card) < fuel →
      ∃ p, bfsLoop G e fuel q V = some p ∧ isPathFromTo G s e p ∧
        p.length = dist e + 1 := by
  intro fuel
  induction fuel with
  | zero => intro q V P inv hm; omega
  | succ fuel ih =>
    intro q V P inv hm
    cases q with
    | nil =>
      exfalso
      have hVP : V = P := by
        have h := inv.vis_eq
        simpa using h
      subst hVP
      have he2 := reaches_mem_closed G V s e inv.start_V inv.closed_P hreach
      exact inv.end_not_P he2
    | cons ent rest =>
      rcases ent with ⟨c, pp⟩
      by_cases hce : c = e
      · refine ⟨pp, ?_, ?_, ?_⟩
        · simp only [bfsLoop]; rw [if_pos hce]
        · exact hce ▸ (inv.path_inv (c, pp) (List.mem_cons_self _ _)).1
        · have h := (inv.path_inv (c, pp) (List.mem_cons_self _ _)).2
          rw [← hce]
          exact h
      · have inv2 := bfs_inv_step G s e dist hclosed hdist c pp rest V P inv hce
        have hcard := pn_card pp (G.adj c) V
        have hcardle : (processNeighbors pp V (G.adj c)).1.card ≤ G.nodes.card :=
          Finset.card_le_card inv2.V_sub
        have hmeasure : (rest ++ (processNeighbors pp V (G.adj c)).2).length +
            2 * (G.nodes.card - (processNeighbors pp V (G.adj c)).1.card) < fuel := by
          rw [List.length_append]
          simp only [List.length_cons] at hm
          omega
        rcases ih (rest ++ (processNeighbors pp V (G.adj c)).2)
          (processNeighbors pp V (G.adj c)).1 (insert c P) inv2 hmeasure
          with ⟨p, hp1, hp2, hp3⟩
        refine ⟨p, ?_, hp2, hp3⟩
        simp only [bfsLoop]
        rw [if_neg hce]
        exact hp1

/-- Claim C1: for every undirected graph (adjacency symmetric, neighbors
inside the node set) and every start and end node present in the graph,
`bfs_shortest_path` returns a walk from start to end of minimal length
when the two nodes are connected, and `None` exactly when no connecting
route exists. -/
theorem bfs_shortest_path_correct (G : BFSGraph)
    (hclosed : ∀ u, ∀ v ∈ G.adj u, v ∈ G.nodes)
    (hsym : ∀ u v, u ∈ G.adj v ↔ v ∈ G.adj u)
    (s e : Nat) (hs : s ∈ G.nodes) (he : e ∈ G.nodes) :
    (∀ p, bfs_shortest_path G s e = some p →
      isPathFromTo G s e p ∧ ∀ q, isPathFromTo G s e q → p.length ≤ q.length) ∧
    (bfs_shortest_path G s e = none → ¬ Reaches G s e) ∧
    (Reaches G s e → ∃ p, bfs_shortest_path G s e = some p) := by
  by_cases hse : s = e
  · subst hse
    have hval : bfs_shortest_path G s s = some [s] := by simp [bfs_shortest_path]
    refine ⟨?_, ?_, ?_⟩
    · intro p hp
      rw [hval] at hp
      rw [← Option.some.inj hp]
      exact ⟨path_singleton G s, fun q hq => path_length_pos hq⟩
    · intro hnone
      rw [hval] at hnone
      exact Option.noConfusion hnone
    · intro hr
      exact ⟨[s], hval⟩
  · have hmem : ¬ (s ∉ G.nodes ∨ e ∉ G.nodes) := by
      rw [not_or]
      exact ⟨not_not_intro hs, not_not_intro he⟩
    have hbfs : bfs_shortest_path G s e =
        bfsLoop G e (2 * G.nodes.card + 1) [(s, [s])] {s} := by
      rw [bfs_shortest_path, if_neg hse, if_neg hmem]
    have hex : ∀ w, ∃ d, Reaches G s w → HopDist G s w d := by
      intro w
      by_cases hw : Reaches G s w
      · rcases exists_hopDist hw with ⟨d, hd⟩
        exact ⟨d, fun _ => hd⟩
      · exact ⟨0, fun h => absurd h hw⟩
    choose dist hdist using hex
    have hreach_s : Reaches G s s := ⟨[s], path_singleton G s⟩
    have hdist_s : dist s = 0 :=
      hopDist_unique (hdist s hreach_s) (hopDist_self G s)
    have hcard : 1 ≤ G.nodes.card := Finset.card_pos.mpr ⟨s, hs⟩
    have inv0 : BFSInv G s e dist [(s, [s])] {s} ∅ := by
      refine ⟨?_, ?_, ?_, ?_, ?_, ?_, ?_, ?_, ?_⟩
      · intro ent hent
        rcases List.mem_singleton.mp hent with rfl
        exact ⟨path_singleton G s, by simp [hdist_s]⟩
      · simp
      · intro x hx y hy
        simp at hx hy
        omega
      · intro w hw hwV ent hent
        have hent2 : (s, [s]) = ent := by simpa using hent
        rw [← hent2]
        have hwns : w ≠ s := by
          intro hws
          exact hwV (by simp [hws])
        have hwd : dist w ≠ 0 := by
          intro h0
          exact hwns (hopDist_zero (h0 ▸ hdist w hw))
        simp only [hdist_s]
        omega
      · simp
      · intro u hu
        exact absurd hu (Finset.not_mem_empty u)
      · exact Finset.not_mem_empty e
      · exact Finset.mem_singleton_self s
      · exact Finset.singleton_subset_iff.mpr hs
    have hcomp : Reaches G s e →
        ∃ p, bfsLoop G e (2 * G.nodes.card + 1) [(s, [s])] {s} = some p ∧
          isPathFromTo G s e p ∧ p.length = dist e + 1 := by
      intro hr
      apply bfsLoop_complete G s e dist hclosed hdist hr _ _ _ ∅ inv0
      simp only [List.length_singleton, Finset.card_singleton]
      omega
    refine ⟨?_, ?_, ?_⟩
    · intro p hp
      rw [hbfs] at hp
      have hsound := bfsLoop_sound G s e (2 * G.nodes.card + 1) [(s, [s])] {s}
        (by
          intro ent hent
          rcases List.mem_singleton.mp hent with rfl
          exact path_singleton G s) p hp
      refine ⟨hsound, ?_⟩
      intro q hq
      have hr : Reaches G s e := ⟨p, hsound⟩
      rcases hcomp hr with ⟨p2, hp2, -, hlen2⟩
      have hpe : p = p2 := by
        rw [hp] at hp2
        exact Option.some.inj hp2
      have hmin := (hdist e hr).2 q hq
      rw [hpe, hlen2]
      exact hmin
    · intro hnone hr
      rcases hcomp hr with ⟨p2, hp2, -, -⟩
      rw [hbfs] at hnone
      rw [hnone] at hp2
      exact Option.noConfusion hp2
    · intro hr
      rcases hcomp hr with ⟨p2, hp2, -, -⟩
      exact ⟨p2, by rw [hbfs]; exact hp2⟩

/-- The 4-node path graph `0 - 1 - 2 - 3` from the specification example. -/
def pathFour : BFSGraph :=
  ⟨{0, 1, 2, 3}, fun n =>
    match n with
    | 0 => [1]
    | 1 => [0, 2]
    | 2 => [1, 3]
    | 3 => [2]
    | _ => []⟩

theorem pathFour_closed : ∀ u, ∀ v ∈ pathFour.adj u, v ∈ pathFour.nodes := by
  intro u v hv
  rcases u with _ | _ | _ | _ | u <;> simp [pathFour] at hv ⊢ <;> omega

theorem pathFour_symm : ∀ u v, u ∈ pathFour.adj v ↔ v ∈ pathFour.adj u := by
  intro u v
  rcases u with _ | _ | _ | _ | u <;> rcases v with _ | _ | _ | _ | v <;>
    simp [pathFour]

/-- Witness for claim C1: on the path graph `0 - 1 - 2 - 3` the endpoints
are nodes, `3` is reachable from `0`, BFS returns a path, and the returned
path is `[0, 1, 2, 3]` as the specification example requires. -/
theorem bfs_shortest_path_correct_witness :
    ((0 : Nat) ∈ pathFour.nodes ∧ (3 : Nat) ∈ pathFour.nodes ∧
      Reaches pathFour 0 3) ∧
      (∃ p, bfs_shortest_path pathFour 0 3 = some p) ∧
      bfs_shortest_path pathFour 0 3 = some [0, 1, 2, 3] := by
  refine ⟨⟨by decide, by decide, ⟨[0, 1, 2, 3], by decide⟩⟩, ?_, by decide⟩
  exact (bfs_shortest_path_correct pathFour pathFour_closed pathFour_symm 0 3
    (by decide) (by decide)).2.2 ⟨[0, 1, 2, 3], by decide⟩
